import Mathlib

/-!
Verification of the Markdown-to-flashcard converter
(`md-to-anki-converter.py`).  Documents are modelled as `List Char`;
each Python function of the converter is embedded as a computable Lean
definition operating on character lists.  Regular-expression operations
are embedded as explicit scanners that follow the backtracking
behaviour of the concrete patterns used by the script.
-/

namespace MdAnki

/-- Python `str.strip` whitespace class (the ASCII whitespace
characters stripped by `strip()`). -/
def isPyWS (c : Char) : Bool :=
  c = ' ' || c = '\t' || c = '\n' || c = '\r' || c = '\x0b' || c = '\x0c'

/-- Python `str.strip()`: drop leading and trailing whitespace. -/
def stripChars (s : List Char) : List Char :=
  ((s.dropWhile isPyWS).reverse.dropWhile isPyWS).reverse

/-- Python `str.startswith`: `isPre p s` holds when `p` is a prefix of `s`. -/
def isPre : List Char → List Char → Bool
  | [], _ => true
  | _ :: _, [] => false
  | a :: as, b :: bs => a = b && isPre as bs

/-- Python `sub in s`: some suffix of `s` begins with `pat`. -/
def containsSubB (pat : List Char) : List Char → Bool
  | [] => isPre pat []
  | c :: rest => isPre pat (c :: rest) || containsSubB pat rest

/-- Python `s.find(pat)`: index of the leftmost occurrence of `pat`. -/
def firstIdxOfSub (pat : List Char) : List Char → Option Nat
  | [] => if isPre pat [] then some 0 else none
  | c :: rest =>
    if isPre pat (c :: rest) then some 0
    else (firstIdxOfSub pat rest).map (fun i => i + 1)

/-- Python `s.rfind(pat)`: index of the rightmost occurrence of `pat`. -/
def rfindSub (pat : List Char) : List Char → Option Nat
  | [] => if isPre pat [] then some 0 else none
  | c :: rest =>
    match rfindSub pat rest with
    | some i => some (i + 1)
    | none => if isPre pat (c :: rest) then some 0 else none

/-- `re.sub(pat, repl, s, 1)` for a literal pattern: replace the first
occurrence of `pat` in `s` by `repl`; `s` is unchanged when `pat` does
not occur. -/
def replaceFirst (pat repl : List Char) : List Char → List Char
  | [] => if isPre pat [] then repl else []
  | c :: rest =>
    if isPre pat (c :: rest) then repl ++ (c :: rest).drop pat.length
    else c :: replaceFirst pat repl rest

/-- Python `s.split("\n")`. -/
def splitNL : List Char → List (List Char)
  | [] => [[]]
  | c :: rest =>
    if c = '\n' then [] :: splitNL rest
    else
      match splitNL rest with
      | [] => [[c]]
      | q :: qs => (c :: q) :: qs

/-- Python `"\n".join(xs)`. -/
def joinNL : List (List Char) → List Char
  | [] => []
  | [x] => x
  | x :: xs => x ++ '\n' :: joinNL xs

/-- State of the line loop of `parse_markdown_bullet_points`:
accumulated cards, the open question (`None` initially) and the open
answer-line list. -/
structure BulletState where
  cards : List (List Char × List Char)
  q : Option (List Char)
  ans : List (List Char)

/-- Python truthiness of `current_question` (`None` and `""` are falsy). -/
def qTruthy : Option (List Char) → Bool
  | none => false
  | some s => !s.isEmpty

/-- One iteration of the line loop of `parse_markdown_bullet_points`. -/
def bulletStep (st : BulletState) (rawLine : List Char) : BulletState :=
  let line := stripChars rawLine
  if line.isEmpty then st
  else if isPre ('-' :: [' ']) line || isPre ('*' :: [' ']) line then
    let cards' :=
      if qTruthy st.q && !st.ans.isEmpty then
        st.cards ++ [(st.q.getD [], joinNL st.ans)]
      else st.cards
    { cards := cards', q := some (stripChars (line.drop 2)), ans := [] }
  else if isPre (' ' :: ' ' :: '-' :: [' ']) line
      || isPre (' ' :: ' ' :: '*' :: [' ']) line then
    if qTruthy st.q then { st with ans := st.ans ++ [stripChars (line.drop 4)] }
    else st
  else st

/-- `parse_markdown_bullet_points` of the script: walk the lines,
flush a pending pair when both a question and at least one answer line
exist, and flush the final pending pair at end of input. -/
def parse_markdown_bullet_points (md : List Char) : List (List Char × List Char) :=
  let final := (splitNL md).foldl bulletStep ⟨[], none, []⟩
  if qTruthy final.q && !final.ans.isEmpty then
    final.cards ++ [(final.q.getD [], joinNL final.ans)]
  else final.cards

/-- A match of the pattern `(?m)^##\s+(.*?)$` at the current position
(which must be a line start): two hashes, then the maximal whitespace
run (which may cross newlines), then the group, read lazily up to the
next newline or the end of input.  Returns the captured group and the
remaining input after the (zero-width) `$`. -/
def h2MatchAt : List Char → Option (List Char × List Char)
  | '#' :: '#' :: c :: t =>
    if isPyWS c then
      let rest2 := (c :: t).dropWhile isPyWS
      some (rest2.takeWhile (fun x => !(x = '\n')), rest2.dropWhile (fun x => !(x = '\n')))
    else none
  | _ => none

/-- `re.split(r'(?m)^##\s+(.*?)$', s)` as a left-to-right scan.  The
flag records whether the current position is a line start.  Fuel
decreases on every step; `fuel = length + 1` always suffices because
each step consumes at least one character. -/
def scanH2F : Nat → Bool → List Char → List (List Char)
  | 0, _, s => [s]
  | _ + 1, _, [] => [[]]
  | fuel + 1, atStart, c :: rest =>
    match (if atStart then h2MatchAt (c :: rest) else none) with
    | some gp => [] :: gp.1 :: scanH2F fuel false gp.2
    | none =>
      match scanH2F fuel (decide (c = '\n')) rest with
      | [] => [[c]]
      | q :: qs => (c :: q) :: qs

/-- The piece list `re.split(r'(?m)^##\s+(.*?)$', md)` of the script. -/
def scanH2Pieces (md : List Char) : List (List Char) :=
  scanH2F (md.length + 1) true md

/-- The pairing loop of `parse_markdown_h2_sections`: for even `i` with
`i+1` in range, emit `(sections[i].strip(), sections[i+1].strip())`. -/
def pairUp : List (List Char) → List (List Char × List Char)
  | a :: b :: rest => (stripChars a, stripChars b) :: pairUp rest
  | _ => []

/-- `parse_markdown_h2_sections` of the script: split on H2 headers,
pop the leading piece when it strips to empty, then pair up. -/
def parse_markdown_h2_sections (md : List Char) : List (List Char × List Char) :=
  match scanH2Pieces md with
  | [] => []
  | s0 :: rest =>
    pairUp (if (stripChars s0).isEmpty then rest else s0 :: rest)

/-- The backquote character (code point 96). -/
def btk : Char := Char.ofNat 96

/-- Python `\w` for the ASCII range: letters, digits and underscore. -/
def isWordChar (c : Char) : Bool := c.isAlphanum || c = '_'

/-- A match of the opening part ```` ```\w+\n ```` of the code-block
pattern at the current position: three backquotes, a maximal non-empty
word run, then a newline.  Only the maximal run can succeed, since a
shorter run would be followed by a word character, not a newline.
Returns the language tag and the input after the newline. -/
def tryOpenFence : List Char → Option (List Char × List Char)
  | a :: b :: c :: t =>
    if a = btk ∧ b = btk ∧ c = btk ∧ (t.takeWhile isWordChar) ≠ []
        ∧ (t.dropWhile isWordChar).head? = some '\n' then
      some (t.takeWhile isWordChar, (t.dropWhile isWordChar).tail)
    else none
  | _ => none

/-- The list of backquote characters forming a fence, ` ``` `. -/
def fence3 : List Char := [btk, btk, btk]

/-- `re.findall(r'```(\w+)\n(.*?)```', md, re.DOTALL)` as a
left-to-right scan: at each position try the opening fence; on success
the lazy group runs to the first subsequent ` ``` `, and scanning
resumes after that closing fence; if the opening matches but no closing
fence exists, or the opening fails, scanning moves one character
forward.  Fuel `length + 1` suffices: every step consumes at least one
character. -/
def findCodeBlocksF : Nat → List Char → List (List Char × List Char)
  | 0, _ => []
  | _ + 1, [] => []
  | fuel + 1, c :: rest =>
    match tryOpenFence (c :: rest) with
    | some lt =>
      match firstIdxOfSub fence3 lt.2 with
      | some i => (lt.1, lt.2.take i) :: findCodeBlocksF fuel (lt.2.drop (i + 3))
      | none => findCodeBlocksF fuel rest
    | none => findCodeBlocksF fuel rest

/-- All code blocks `(lang, code)` found in the document. -/
def findCodeBlocks (md : List Char) : List (List Char × List Char) :=
  findCodeBlocksF (md.length + 1) md

/-- The question text
`f"What does this {lang} code do?\n```{lang}\n{code.strip()}\n```"`. -/
def mkCodeQuestion (lang code : List Char) : List Char :=
  String.toList "What does this " ++ lang ++ String.toList " code do?\n"
    ++ fence3 ++ lang ++ '\n' :: (stripChars code ++ '\n' :: fence3)

/-- The body of the loop of `parse_markdown_code_blocks` for one found
block: locate the block's first occurrence, search backward for the
nearest blank-line boundary, and emit a card only when the context
between them is non-empty after trimming and does not itself start with
a fence.  The first lookup cannot fail, since the block text was found
in the document; its `none` branch is unreachable. -/
def codeCardFor (md : List Char) (lc : List Char × List Char) :
    Option (List Char × List Char) :=
  match firstIdxOfSub (fence3 ++ lc.1 ++ '\n' :: lc.2) md with
  | none => none
  | some blockPos =>
    match rfindSub ('\n' :: ['\n']) (md.take blockPos) with
    | none => none
    | some st =>
      let context := stripChars ((md.take blockPos).drop st)
      if ¬context.isEmpty ∧ isPre fence3 context = false then
        some (mkCodeQuestion lc.1 lc.2, context)
      else none

/-- `parse_markdown_code_blocks` of the script. -/
def parse_markdown_code_blocks (md : List Char) : List (List Char × List Char) :=
  (findCodeBlocks md).filterMap (codeCardFor md)

/-- Index of the last occurrence of `c` in the list, if any. -/
def lastIdxOf (c : Char) : List Char → Option Nat
  | [] => none
  | a :: rest =>
    match lastIdxOf c rest with
    | some i => some (i + 1)
    | none => if a = c then some 0 else none

/-- Prepend a character onto the first piece of a split result. -/
def consPiece (c : Char) : List (List Char) → List (List Char)
  | [] => [[c]]
  | q :: qs => (c :: q) :: qs

/-- `re.split(r'\n\s*\n', md)` as a left-to-right scan.  A separator
starts at a newline whose following maximal whitespace run contains
another newline; the greedy `\s*` backtracks until the next character
is a newline, so the separator extends through the last newline of the
run.  Fuel `length + 1` suffices: every step consumes a character. -/
def splitParasF : Nat → List Char → List (List Char)
  | 0, s => [s]
  | _ + 1, [] => [[]]
  | fuel + 1, c :: rest =>
    match (if c = '\n' then lastIdxOf '\n' (rest.takeWhile isPyWS) else none) with
    | some k => [] :: splitParasF fuel (rest.drop (k + 1))
    | none => consPiece c (splitParasF fuel rest)

/-- The paragraph list `re.split(r'\n\s*\n', md)` of the script. -/
def splitParas (md : List Char) : List (List Char) :=
  splitParasF (md.length + 1) md

/-- The lazy closing scan of `\*\*(.*?)\*\*` after an opening `**`:
find the shortest newline-free content followed by `**`; returns the
content and the input after the closing `**`. -/
def clozeScanBold : List Char → Option (List Char × List Char)
  | '*' :: '*' :: rest => some ([], rest)
  | c :: rest =>
    if c = '\n' then none
    else (clozeScanBold rest).map (fun p => (c :: p.1, p.2))
  | [] => none

/-- The lazy closing scan of `` `(.*?)` `` after an opening backquote:
find the shortest newline-free content followed by a backquote. -/
def clozeScanTick (s : List Char) : Option (List Char × List Char) :=
  match s with
  | c :: rest =>
    if c = btk then some ([], rest)
    else if c = '\n' then none
    else (clozeScanTick rest).map (fun p => (c :: p.1, p.2))
  | [] => none

/-- ``re.findall(r'\*\*(.*?)\*\*|`(.*?)`', paragraph)`` as a
left-to-right scan.  Each hit is the pair of the two capture groups;
exactly the matching alternative is filled, and an empty span such as
`"****"` fills its group with the empty string.  On a miss the scan
moves one character forward.  Fuel `length + 1` suffices. -/
def findHighlightsF : Nat → List Char → List (List Char × List Char)
  | 0, _ => []
  | _ + 1, [] => []
  | fuel + 1, c :: rest =>
    if c = '*' then
      match rest with
      | '*' :: t =>
        match clozeScanBold t with
        | some ca => (ca.1, []) :: findHighlightsF fuel ca.2
        | none => findHighlightsF fuel rest
      | _ => findHighlightsF fuel rest
    else if c = btk then
      match clozeScanTick rest with
      | some ca => ([], ca.1) :: findHighlightsF fuel ca.2
      | none => findHighlightsF fuel rest
    else findHighlightsF fuel rest

/-- All highlight pairs of a paragraph. -/
def findHighlights (p : List Char) : List (List Char × List Char) :=
  findHighlightsF (p.length + 1) p

/-- Decimal digits of a natural number (fuelled division loop). -/
def natDigitsF : Nat → Nat → List Char
  | 0, _ => []
  | fuel + 1, n =>
    if n < 10 then [Char.ofNat (48 + n)]
    else natDigitsF fuel (n / 10) ++ [Char.ofNat (48 + n % 10)]

/-- Decimal representation of a natural number. -/
def natDigits (n : Nat) : List Char := natDigitsF (n + 1) n

/-- The opening of a cloze deletion marker, `"\x7b\x7bc"`. -/
def clozeOpen : List Char := String.toList "\x7b\x7bc"

/-- The replacement text `f"\x7b\x7bc{count}::{text}\x7d\x7d"`. -/
def mkCloze (count : Nat) (ht : List Char) : List Char :=
  clozeOpen ++ natDigits count ++ String.toList "::" ++ ht
    ++ String.toList "\x7d\x7d"

/-- The replacement loop of `create_cloze_cards` over the found
highlight pairs.  `next(h for h in highlight if h)` takes the first
non-empty group and raises `StopIteration` (modelled as `none`) when
both groups are empty.  The bold-delimited pattern is searched first;
if absent from the working text the backquote-delimited pattern is
used; the first occurrence is replaced and the counter always
advances. -/
def applyHighlights : List (List Char × List Char) → Nat → List Char → Option (List Char)
  | [], _, text => some text
  | g :: rest, count, text =>
    match (if ¬g.1.isEmpty then some g.1
           else if ¬g.2.isEmpty then some g.2 else none) with
    | none => none
    | some ht =>
      let boldPat := '*' :: '*' :: (ht ++ ['*', '*'])
      let pat := if containsSubB boldPat text then boldPat
                 else btk :: (ht ++ [btk])
      applyHighlights rest (count + 1) (replaceFirst pat (mkCloze count ht) text)

/-- The per-paragraph body of `create_cloze_cards`: skip headers and
paragraphs shorter than 20 characters; otherwise rewrite each found
highlight in order and emit one card when a deletion marker was
actually inserted.  `none` models an uncaught `StopIteration`. -/
def clozeForParagraph (p : List Char) : Option (List (List Char × List Char)) :=
  if isPre ['#'] p = true ∨ p.length < 20 then some []
  else
    match findHighlights p with
    | [] => some []
    | g :: gs =>
      match applyHighlights (g :: gs) 1 p with
      | none => none
      | some clozeText =>
        if containsSubB clozeOpen clozeText then some [(clozeText, [])]
        else some []

/-- Sequence the paragraph results; a raised exception in any
paragraph aborts the whole extraction. -/
def seqParagraphs : List (List Char) → Option (List (List Char × List Char))
  | [] => some []
  | p :: rest =>
    match clozeForParagraph p with
    | none => none
    | some cs =>
      match seqParagraphs rest with
      | none => none
      | some more => some (cs ++ more)

/-- `create_cloze_cards` of the script; `none` models an uncaught
exception. -/
def create_cloze_cards (md : List Char) : Option (List (List Char × List Char)) :=
  seqParagraphs (splitParas md)

/-- `re.search` of a multiline line-anchored pattern: test the
position predicate at every line start.  The flag records whether the
current position is a line start. -/
def searchLS (p : List Char → Bool) : Bool → List Char → Bool
  | atStart, [] => atStart && p []
  | atStart, c :: rest =>
    (atStart && p (c :: rest)) || searchLS p (decide (c = '\n')) rest

/-- The position predicate of `(?m)^##\s+`: two hashes then one
whitespace character. -/
def pH2 (s : List Char) : Bool :=
  match s with
  | a :: b :: c :: _ => a = '#' && b = '#' && isPyWS c
  | _ => false

/-- The position predicate of `(?m)^- |^\* `. -/
def pTopBullet (s : List Char) : Bool :=
  isPre ('-' :: [' ']) s || isPre ('*' :: [' ']) s

/-- The position predicate of `(?m)^  - |^  \* `. -/
def pSubBullet (s : List Char) : Bool :=
  isPre (' ' :: ' ' :: '-' :: [' ']) s || isPre (' ' :: ' ' :: '*' :: [' ']) s

/-- `re.search(r'```\w+\n', md)`: an opening fence with a language tag
occurs at some (not necessarily line-start) position. -/
def hasFenceOpen : List Char → Bool
  | [] => false
  | c :: rest => (tryOpenFence (c :: rest)).isSome || hasFenceOpen rest

/-- `detect_card_format` of the script: the fixed priority cascade
sections, then bullets, then code, with cloze as the fallback. -/
def detect_card_format (md : List Char) : String :=
  if searchLS pH2 true md then "sections"
  else if searchLS pTopBullet true md && searchLS pSubBullet true md then "bullets"
  else if hasFenceOpen md then "code"
  else "cloze"

/-- The row list written by `write_cards_to_file`: one row per card,
`(front, tags)` in cloze mode and `(front, back, tags)` otherwise, with
no header row.  The delimited-text encoding of each row is delegated to
the `csv` library and is outside the model. -/
def write_cards_to_file (cards : List (List Char × List Char))
    (tag_list : Option (List Char)) (card_type : String) :
    List (List (List Char)) :=
  let tags := tag_list.getD []
  if card_type = "Cloze" then cards.map (fun c => [c.1, tags])
  else cards.map (fun c => [c.1, c.2, tags])

end MdAnki

namespace MdAnki

theorem dropWhile_head_not (p : Char → Bool) :
    ∀ (l : List Char) c t, l.dropWhile p = c :: t → p c = false := by
  intro l
  induction l with
  | nil => intro c t h; simp [List.dropWhile] at h
  | cons a as ih =>
    intro c t h
    rw [List.dropWhile_cons] at h
    by_cases hp : p a
    · exact ih c t (by simpa [hp] using h)
    · simp only [hp, if_neg] at h
      cases h
      simpa using hp

theorem rstrip_decomp (p : Char → Bool) (m : List Char) :
    m = (m.reverse.dropWhile p).reverse ++ (m.reverse.takeWhile p).reverse := by
  have h1 : m.reverse.takeWhile p ++ m.reverse.dropWhile p = m.reverse :=
    List.takeWhile_append_dropWhile p m.reverse
  calc m = m.reverse.reverse := (List.reverse_reverse m).symm
    _ = (m.reverse.takeWhile p ++ m.reverse.dropWhile p).reverse := by rw [h1]
    _ = (m.reverse.dropWhile p).reverse ++ (m.reverse.takeWhile p).reverse :=
      List.reverse_append _ _

theorem stripChars_head_not_ws :
    ∀ (l : List Char) c t, stripChars l = c :: t → isPyWS c = false := by
  intro l c t h
  have hm := rstrip_decomp isPyWS (l.dropWhile isPyWS)
  rw [show ((l.dropWhile isPyWS).reverse.dropWhile isPyWS).reverse
    = stripChars l from rfl] at hm
  rw [h] at hm
  exact dropWhile_head_not isPyWS l c _ hm

theorem isPre_cons_inv {a : Char} {as s : List Char} (h : isPre (a :: as) s = true) :
    ∃ bs, s = a :: bs ∧ isPre as bs = true := by
  cases s with
  | nil => simp [isPre] at h
  | cons b bs =>
    simp only [isPre, Bool.and_eq_true, decide_eq_true_eq] at h
    exact ⟨bs, by rw [h.1], h.2⟩

/-- In the bullet extractor, a stripped non-empty line never starts with
a space, so the sub-bullet branch is unreachable and the step preserves
"no answers accumulated, no cards emitted". -/
theorem bulletStep_preserves (st : BulletState) (raw : List Char)
    (h : st.ans = [] ∧ st.cards = []) :
    (bulletStep st raw).ans = [] ∧ (bulletStep st raw).cards = [] := by
  unfold bulletStep
  by_cases he : (stripChars raw).isEmpty
  · simp [he, h.1, h.2]
  · simp only [he, Bool.false_eq_true, if_false]
    by_cases hb : (isPre ('-' :: [' ']) (stripChars raw)
        || isPre ('*' :: [' ']) (stripChars raw)) = true
    · simp [hb, h.1, h.2]
    · simp only [hb, Bool.false_eq_true, if_false]
      by_cases hs : (isPre (' ' :: ' ' :: '-' :: [' ']) (stripChars raw)
          || isPre (' ' :: ' ' :: '*' :: [' ']) (stripChars raw)) = true
      · exfalso
        have hsp : ∃ bs, stripChars raw = ' ' :: bs := by
          rcases Bool.or_eq_true_iff.mp hs with h1 | h1
          · rcases isPre_cons_inv h1 with ⟨bs, hbs, _⟩
            exact ⟨bs, hbs⟩
          · rcases isPre_cons_inv h1 with ⟨bs, hbs, _⟩
            exact ⟨bs, hbs⟩
        rcases hsp with ⟨bs, hbs⟩
        have := stripChars_head_not_ws raw ' ' bs hbs
        simp [isPyWS] at this
      · simp [hs, h.1, h.2]

theorem bullet_fold_nil :
    ∀ (lines : List (List Char)) (st : BulletState),
      st.ans = [] → st.cards = [] →
      (lines.foldl bulletStep st).ans = [] ∧ (lines.foldl bulletStep st).cards = [] := by
  intro lines
  induction lines with
  | nil => intro st h1 h2; exact ⟨h1, h2⟩
  | cons l ls ih =>
    intro st h1 h2
    have := bulletStep_preserves st l ⟨h1, h2⟩
    exact ih (bulletStep st l) this.1 this.2

/-- The bullet extractor returns the empty list on every input. -/
theorem parse_markdown_bullet_points_nil (md : List Char) :
    parse_markdown_bullet_points md = [] := by
  unfold parse_markdown_bullet_points
  have h := bullet_fold_nil (splitNL md) ⟨[], none, []⟩ rfl rfl
  simp [h.1, h.2]

/-- C2: for every input document the bullet extractor returns the empty
card list: every line is stripped before classification, so the
sub-bullet branch can never match, no answer line is accumulated, and
the flush condition (question AND at least one answer) never holds. -/
theorem C2_bullets_always_empty (md : List Char) :
    parse_markdown_bullet_points md = [] :=
  parse_markdown_bullet_points_nil md

/-- C1: on the document `"- Q1\n  - A1\n  - A2\n- Q2"` the code returns
no cards at all, contradicting the specified single card
`("Q1", "A1\nA2")`: stripping turns the sub-bullet lines into top-level
bullets, so they restart the question instead of accumulating answers. -/
theorem C1_bullet_example_yields_no_cards :
    parse_markdown_bullet_points
      (String.toList "- Q1\n  - A1\n  - A2\n- Q2") = [] := by
  decide

theorem scanH2F_head_pre :
    ∀ (fuel : Nat) (b : Bool) (s : List Char) p ps,
      scanH2F fuel b s = p :: ps → ∃ suf, s = p ++ suf := by
  intro fuel
  induction fuel with
  | zero =>
    intro b s p ps h
    simp only [scanH2F] at h
    cases h
    exact ⟨[], by simp⟩
  | succ fuel ih =>
    intro b s p ps h
    cases s with
    | nil =>
      simp only [scanH2F] at h
      cases h
      exact ⟨[], by simp⟩
    | cons c rest =>
      rw [scanH2F] at h
      cases hm : (if b then h2MatchAt (c :: rest) else none) with
      | some gp =>
        rw [hm] at h
        cases h
        exact ⟨c :: rest, rfl⟩
      | none =>
        rw [hm] at h
        cases hq : scanH2F fuel (decide (c = '\n')) rest with
        | nil =>
          rw [hq] at h
          cases h
          exact ⟨rest, rfl⟩
        | cons q qs =>
          rw [hq] at h
          cases h
          obtain ⟨suf, hsuf⟩ := ih _ rest q _ hq
          exact ⟨suf, by rw [List.cons_append, ← hsuf]⟩

/-- C3 counterexample: on `"intro\n## A\nbody1"` the non-whitespace
preamble `"intro"` is not discarded; it becomes the front of the first
(and only) card, paired with the first header text `"A"` as back, so
text preceding the first header does appear in a card. -/
theorem C3_counterexample_preamble_becomes_card :
    parse_markdown_h2_sections (String.toList "intro\n## A\nbody1")
      = [(String.toList "intro", String.toList "A")] := by
  decide

/-- C3 amended: the first split piece is the document text before the
first header match (a prefix of the document).  It is discarded exactly
when it is whitespace-only, in which case the cards are the
(trimmed header, trimmed body) pairs of the remaining pieces; a
non-whitespace preamble is kept, so it pairs with the first header text
and shifts all subsequent pairings. -/
theorem C3_amended_preamble_policy :
    ∀ (md : List Char) p ps, scanH2Pieces md = p :: ps →
      (∃ suf, md = p ++ suf) ∧
      ((stripChars p).isEmpty = true → parse_markdown_h2_sections md = pairUp ps) ∧
      ((stripChars p).isEmpty = false →
        parse_markdown_h2_sections md = pairUp (p :: ps)) := by
  intro md p ps h
  refine ⟨scanH2F_head_pre _ _ _ _ _ h, ?_, ?_⟩ <;>
    intro hw <;> simp [parse_markdown_h2_sections, h, hw]

theorem C3_amended_witness :
    parse_markdown_h2_sections (String.toList "x\n## A\nb")
      = pairUp [String.toList "x\n", String.toList "A", String.toList "\nb"] :=
  (C3_amended_preamble_policy (String.toList "x\n## A\nb")
    (String.toList "x\n") [String.toList "A", String.toList "\nb"]
    (by decide)).2.2 (by decide)

/-- C5 counterexample: the section extractor applied to `"## "` (a
level-2 header whose title is whitespace up to the end of input) emits
the card `("", "")`, whose front is the empty string. -/
theorem C5_counterexample_empty_front :
    parse_markdown_h2_sections (String.toList "## ") = [([], [])] := by
  decide

/-- C8 counterexample: a fenced block directly preceded by a
blank-line-separated paragraph (`"B.\n\n```py\nx\n```"`) yields zero
cards, not one: the backward search finds the blank line adjacent to
the block, so the candidate context is the blank line itself, which
strips to empty. -/
theorem C8_counterexample_blank_line_adjacent :
    parse_markdown_code_blocks (String.toList "B.\n\n```py\nx\n```") = [] := by
  decide

/-- C8 amended: a card is produced when the explanatory paragraph
adjoins the block with a single newline and a blank-line boundary lies
before the paragraph: the front starts with `"What does this "` and
contains the literal code fence, and the back is the trimmed paragraph.
A block whose preceding blank line is adjacent yields no card, and a
block at document start (no blank-line boundary before it) yields zero
cards. -/
theorem C8_amended_code_block_context :
    parse_markdown_code_blocks (String.toList "A.\n\nB.\n```py\nx\n```")
        = [(mkCodeQuestion (String.toList "py") (String.toList "x\n"),
            String.toList "B.")]
      ∧ isPre (String.toList "What does this ")
          (mkCodeQuestion (String.toList "py") (String.toList "x\n")) = true
      ∧ containsSubB (String.toList "```py\nx\n```")
          (mkCodeQuestion (String.toList "py") (String.toList "x\n")) = true
      ∧ parse_markdown_code_blocks (String.toList "B.\n\n```py\nx\n```") = []
      ∧ parse_markdown_code_blocks (String.toList "```py\nx\n```") = [] := by
  refine ⟨by decide, by decide, by decide, by decide, by decide⟩

/-- C9 counterexample: a block whose closing triple backquote is
embedded mid-line with trailing text (`"```py\ncode``` t\n"`) is still
recognized: the lazy group closes at the first occurrence of three
backquotes, bare or not. -/
theorem C9_counterexample_nonbare_close_recognized :
    findCodeBlocks (String.toList "```py\ncode``` t\n")
      = [(String.toList "py", String.toList "code")] := by
  decide

theorem isPre_self_append (p r : List Char) : isPre p (p ++ r) = true := by
  induction p with
  | nil => simp [isPre]
  | cons a as ih => simpa [isPre] using ih

theorem isPre_decomp :
    ∀ (p s : List Char), isPre p s = true → s = p ++ s.drop p.length := by
  intro p
  induction p with
  | nil => intro s _; simp
  | cons a as ih =>
    intro s h
    rcases isPre_cons_inv h with ⟨bs, hbs, h2⟩
    subst hbs
    have := ih bs h2
    simp only [List.cons_append, List.length_cons, List.drop_succ_cons]
    rw [← this]

theorem isPre_take :
    ∀ (p t : List Char) (k : Nat), isPre p (t.take k) = true → isPre p t = true := by
  intro p
  induction p with
  | nil => intro t k _; simp [isPre]
  | cons a as ih =>
    intro t k h
    rcases isPre_cons_inv h with ⟨bs, hbs, h2⟩
    cases t with
    | nil => simp at hbs
    | cons c rest =>
      cases k with
      | zero => simp at hbs
      | succ k' =>
        rw [List.take_succ_cons] at hbs
        injection hbs with hc hrest
        subst hc
        have hrec := ih rest k' (hrest ▸ h2)
        simp [isPre, hrec]

theorem isPre_drop_take (p s : List Char) (i j : Nat)
    (h : isPre p ((s.take i).drop j) = true) : isPre p (s.drop j) = true := by
  rw [List.drop_take] at h
  exact isPre_take p (s.drop j) (i - j) h

theorem containsSub_exists :
    ∀ (pat l : List Char), containsSubB pat l = true →
      ∃ j, isPre pat (l.drop j) = true := by
  intro pat l
  induction l with
  | nil => intro h; exact ⟨0, by simpa [containsSubB] using h⟩
  | cons c rest ih =>
    intro h
    simp only [containsSubB, Bool.or_eq_true] at h
    rcases h with h | h
    · exact ⟨0, by simpa using h⟩
    · rcases ih h with ⟨j, hj⟩
      exact ⟨j + 1, by simpa [List.drop_succ_cons] using hj⟩

theorem containsSub_of_isPre_drop :
    ∀ (pat l : List Char) (j : Nat), isPre pat (l.drop j) = true →
      containsSubB pat l = true := by
  intro pat l
  induction l with
  | nil => intro j h; simpa [containsSubB, List.drop_nil] using h
  | cons c rest ih =>
    intro j h
    cases j with
    | zero =>
      simp only [List.drop_zero] at h
      simp [containsSubB, h]
    | succ j' =>
      simp only [List.drop_succ_cons] at h
      simp [containsSubB, ih j' h]

theorem containsSub_drop (pat l : List Char) (k : Nat)
    (h : containsSubB pat (l.drop k) = true) : containsSubB pat l = true := by
  rcases containsSub_exists pat _ h with ⟨j, hj⟩
  rw [List.drop_drop] at hj
  exact containsSub_of_isPre_drop pat l (k + j) hj

theorem containsSub_cons (pat : List Char) (c : Char) (l : List Char)
    (h : containsSubB pat l = true) : containsSubB pat (c :: l) = true := by
  simp [containsSubB, h]

theorem containsSub_append_left (pat l r : List Char)
    (h : containsSubB pat r = true) : containsSubB pat (l ++ r) = true := by
  induction l with
  | nil => simpa
  | cons c cs ih => simpa [List.cons_append] using containsSub_cons pat c _ ih

theorem firstIdx_min :
    ∀ (pat s : List Char) (i : Nat), firstIdxOfSub pat s = some i →
      ∀ j, isPre pat (s.drop j) = true → i ≤ j := by
  intro pat s
  induction s with
  | nil =>
    intro i h j hj
    simp only [firstIdxOfSub] at h
    split at h
    · cases h; exact Nat.zero_le j
    · cases h
  | cons c rest ih =>
    intro i h j hj
    simp only [firstIdxOfSub] at h
    split at h
    · cases h; exact Nat.zero_le j
    · rename_i hnp
      cases hf : firstIdxOfSub pat rest with
      | none => rw [hf] at h; simp at h
      | some i' =>
        rw [hf] at h
        simp only [Option.map_some', Option.some.injEq] at h
        cases j with
        | zero =>
          simp only [List.drop_zero] at hj
          exact absurd hj hnp
        | succ j' =>
          simp only [List.drop_succ_cons] at hj
          have := ih i' hf j' hj
          omega

theorem firstIdx_decomp :
    ∀ (pat s : List Char) (i : Nat), firstIdxOfSub pat s = some i →
      s = s.take i ++ pat ++ s.drop (i + pat.length) := by
  intro pat s
  induction s with
  | nil =>
    intro i h
    simp only [firstIdxOfSub] at h
    split at h
    · cases h
      rename_i hp
      cases pat with
      | nil => simp
      | cons a as => simp [isPre] at hp
    · cases h
  | cons c rest ih =>
    intro i h
    simp only [firstIdxOfSub] at h
    split at h
    · cases h
      rename_i hp
      simpa using isPre_decomp pat (c :: rest) hp
    · cases hf : firstIdxOfSub pat rest with
      | none => rw [hf] at h; simp at h
      | some i' =>
        rw [hf] at h
        simp only [Option.map_some', Option.some.injEq] at h
        have hrec := ih i' hf
        have harr : i' + 1 + pat.length = (i' + pat.length) + 1 := by omega
        rw [← h, harr, List.drop_succ_cons, List.take_succ_cons]
        simp only [List.cons_append, List.append_assoc] at hrec ⊢
        rw [← hrec]

theorem containsSub_take_firstIdx (pat s : List Char) (i : Nat)
    (hne : pat ≠ []) (h : firstIdxOfSub pat s = some i) :
    containsSubB pat (s.take i) = false := by
  by_contra hc
  simp only [Bool.not_eq_false] at hc
  rcases containsSub_exists pat _ hc with ⟨j, hj⟩
  have hj' := isPre_drop_take pat s i j hj
  have hij := firstIdx_min pat s i h j hj'
  have hlen : (s.take i).length ≤ j :=
    le_trans (List.length_take_le i s) hij
  rw [List.drop_eq_nil_iff.mpr hlen] at hj
  cases pat with
  | nil => exact hne rfl
  | cons a as => simp [isPre] at hj

theorem tryOpenFence_sound :
    ∀ (s lang after : List Char), tryOpenFence s = some (lang, after) →
      s = fence3 ++ lang ++ '\n' :: after ∧ lang ≠ []
        ∧ lang.all isWordChar = true := by
  intro s lang after h
  cases s with
  | nil => simp [tryOpenFence] at h
  | cons a s1 =>
    cases s1 with
    | nil => simp [tryOpenFence] at h
    | cons b s2 =>
      cases s2 with
      | nil => simp [tryOpenFence] at h
      | cons c t =>
        simp only [tryOpenFence] at h
        split at h
        · rename_i hcond
          obtain ⟨ha, hb, hc, htw, hhd⟩ := hcond
          subst ha
          subst hb
          subst hc
          injection h with h'
          injection h' with hl hafter
          subst hl
          subst hafter
          refine ⟨?_, htw, List.all_takeWhile⟩
          have ht : t = t.takeWhile isWordChar ++ t.dropWhile isWordChar :=
            (List.takeWhile_append_dropWhile isWordChar t).symm
          have hdw : t.dropWhile isWordChar
              = '\n' :: (t.dropWhile isWordChar).tail := by
            cases hd : t.dropWhile isWordChar with
            | nil => rw [hd] at hhd; cases hhd
            | cons d t3 =>
              rw [hd] at hhd
              injection hhd with hdn
              subst hdn
              rfl
          rw [hdw] at ht
          simp only [fence3, List.cons_append, List.nil_append]
          rw [← ht]
        · cases h

theorem findCodeBlocksF_sound :
    ∀ (fuel : Nat) (s lang code : List Char),
      (lang, code) ∈ findCodeBlocksF fuel s →
      lang ≠ [] ∧ lang.all isWordChar = true
        ∧ containsSubB fence3 code = false
        ∧ containsSubB (fence3 ++ lang ++ '\n' :: (code ++ fence3)) s = true := by
  intro fuel
  induction fuel with
  | zero => intro s lang code h; simp [findCodeBlocksF] at h
  | succ fuel ih =>
    intro s lang code h
    cases s with
    | nil => simp [findCodeBlocksF] at h
    | cons c0 rest =>
      cases ho : tryOpenFence (c0 :: rest) with
      | none =>
        simp only [findCodeBlocksF, ho] at h
        have hr := ih rest lang code h
        exact ⟨hr.1, hr.2.1, hr.2.2.1, containsSub_cons _ c0 rest hr.2.2.2⟩
      | some lt =>
        obtain ⟨hs, hlne, hlw⟩ := tryOpenFence_sound (c0 :: rest) lt.1 lt.2 ho
        cases hf : firstIdxOfSub fence3 lt.2 with
        | none =>
          simp only [findCodeBlocksF, ho, hf] at h
          have hr := ih rest lang code h
          exact ⟨hr.1, hr.2.1, hr.2.2.1, containsSub_cons _ c0 rest hr.2.2.2⟩
        | some i =>
          simp only [findCodeBlocksF, ho, hf, List.mem_cons, Prod.mk.injEq] at h
          rcases h with ⟨hl, hc⟩ | h
          · subst hl
            subst hc
            have hdecomp := firstIdx_decomp fence3 lt.2 i hf
            have hflen : fence3.length = 3 := by simp [fence3]
            rw [hflen] at hdecomp
            refine ⟨hlne, hlw, containsSub_take_firstIdx fence3 lt.2 i
              (by simp [fence3]) hf, ?_⟩
            have hsplit : (c0 :: rest)
                = (fence3 ++ lt.1 ++ '\n' :: (lt.2.take i ++ fence3))
                  ++ lt.2.drop (i + 3) := by
              rw [hs]
              conv_lhs => rw [hdecomp]
              simp [List.append_assoc]
            have hpre := isPre_self_append
              (fence3 ++ lt.1 ++ '\n' :: (lt.2.take i ++ fence3))
              (lt.2.drop (i + 3))
            rw [hsplit]
            exact containsSub_of_isPre_drop _ _ 0 (by simpa using hpre)
          · have hr := ih (lt.2.drop (i + 3)) lang code h
            refine ⟨hr.1, hr.2.1, hr.2.2.1, ?_⟩
            have h1 : containsSubB (fence3 ++ lang ++ '\n' :: (code ++ fence3))
                lt.2 = true := containsSub_drop _ _ _ hr.2.2.2
            rw [hs]
            exact containsSub_append_left _ fence3 _
              (containsSub_append_left _ lt.1 _ (containsSub_cons _ '\n' _ h1))

/-- C9 amended: the extractor recognizes blocks opening with three
backquotes immediately followed by a non-empty word-character language
tag and a newline; the closing fence is the first subsequent occurrence
of three backquotes, bare or not.  Every recognized `(lang, code)` pair
has a non-empty all-word-character language tag, a code body containing
no triple backquote, and the reconstructed fenced block occurs verbatim
in the document. -/
theorem C9_amended_recognized_blocks :
    ∀ (md lang code : List Char), (lang, code) ∈ findCodeBlocks md →
      lang ≠ [] ∧ lang.all isWordChar = true
        ∧ containsSubB fence3 code = false
        ∧ containsSubB (fence3 ++ lang ++ '\n' :: (code ++ fence3)) md = true :=
  fun md lang code h => findCodeBlocksF_sound (md.length + 1) md lang code h

theorem C9_amended_witness :
    String.toList "py" ≠ [] ∧ (String.toList "py").all isWordChar = true
      ∧ containsSubB fence3 (String.toList "x\n") = false
      ∧ containsSubB
          (fence3 ++ String.toList "py" ++ '\n' :: (String.toList "x\n" ++ fence3))
          (String.toList "```py\nx\n```") = true :=
  C9_amended_recognized_blocks (String.toList "```py\nx\n```")
    (String.toList "py") (String.toList "x\n") (by decide)

theorem mem_consPiece (c : Char) (ps : List (List Char)) (p : List Char)
    (h : p ∈ consPiece c ps) :
    (ps = [] ∧ p = [c]) ∨ ∃ q qs, ps = q :: qs ∧ (p = c :: q ∨ p ∈ qs) := by
  cases ps with
  | nil =>
    simp only [consPiece, List.mem_singleton] at h
    exact Or.inl ⟨rfl, h⟩
  | cons q qs =>
    simp only [consPiece, List.mem_cons] at h
    exact Or.inr ⟨q, qs, rfl, h⟩

/-- Every paragraph produced by the split is at most as long as the
document it came from. -/
theorem splitParasF_mem_length :
    ∀ (fuel : Nat) (s p : List Char), p ∈ splitParasF fuel s → p.length ≤ s.length := by
  intro fuel
  induction fuel with
  | zero =>
    intro s p h
    simp only [splitParasF, List.mem_singleton] at h
    subst h
    exact Nat.le_refl _
  | succ fuel ih =>
    intro s p h
    cases s with
    | nil =>
      simp only [splitParasF, List.mem_singleton] at h
      subst h
      exact Nat.le_refl _
    | cons c rest =>
      cases hk : (if c = '\n' then lastIdxOf '\n' (rest.takeWhile isPyWS) else none) with
      | some k =>
        simp only [splitParasF, hk, List.mem_cons] at h
        rcases h with h | h
        · subst h; simp
        · have h1 := ih _ p h
          have h2 : (rest.drop (k + 1)).length ≤ rest.length := by
            rw [List.length_drop]; omega
          simp only [List.length_cons]
          omega
      | none =>
        simp only [splitParasF, hk] at h
        rcases mem_consPiece c _ p h with ⟨_, hp⟩ | ⟨q, qs, hq, hp⟩
        · subst hp; simp
        · rcases hp with hp | hp
          · subst hp
            have h1 := ih rest q (by rw [hq]; exact List.mem_cons_self q qs)
            simp only [List.length_cons]
            omega
          · have h1 := ih rest p (by rw [hq]; exact List.mem_cons_of_mem q hp)
            simp only [List.length_cons]
            omega

theorem clozeForParagraph_short (p : List Char) (h : p.length < 20) :
    clozeForParagraph p = some [] := by
  unfold clozeForParagraph
  rw [if_pos (Or.inr h)]

theorem seqParagraphs_all_empty :
    ∀ (ps : List (List Char)), (∀ p ∈ ps, clozeForParagraph p = some []) →
      seqParagraphs ps = some [] := by
  intro ps
  induction ps with
  | nil => intro _; rfl
  | cons p rest ih =>
    intro h
    have h1 : clozeForParagraph p = some [] := h p (List.mem_cons_self p rest)
    have h2 := ih (fun q hq => h q (List.mem_cons_of_mem p hq))
    simp [seqParagraphs, h1, h2]

/-- A document shorter than 20 characters has only paragraphs shorter
than 20 characters, so cloze extraction returns no cards (and raises
nothing). -/
theorem create_cloze_cards_short (md : List Char) (h : md.length < 20) :
    create_cloze_cards md = some [] := by
  unfold create_cloze_cards
  apply seqParagraphs_all_empty
  intro p hp
  simp only [splitParas] at hp
  exact clozeForParagraph_short p
    (lt_of_le_of_lt (splitParasF_mem_length _ md p hp) h)

/-- C4: the claim of error-free totality fails for the cloze extractor:
on a paragraph containing the empty emphasized span `"****"` the found
highlight pair has two empty groups, so
`next(h for h in highlight if h)` raises an uncaught `StopIteration`
(modelled by `none`). -/
theorem C4_cloze_crash_on_empty_bold :
    create_cloze_cards (String.toList "Empty bold **** in a long paragraph.")
      = none := by
  decide

/-- C7 counterexample: a paragraph of length at least 20 that contains
`"The **mitochondria** is the **powerhouse**"` after another bold span
numbers the deletions from that earlier span, so the front contains
`c2::mitochondria` and `c3::powerhouse` and never `c1::mitochondria`. -/
theorem C7_counterexample_shifted_indices :
    create_cloze_cards
        (String.toList "**a** The **mitochondria** is the **powerhouse**")
      = some [(String.toList
          "\x7b\x7bc1::a\x7d\x7d The \x7b\x7bc2::mitochondria\x7d\x7d is the \x7b\x7bc3::powerhouse\x7d\x7d", [])]
      ∧ containsSubB (String.toList "\x7b\x7bc1::mitochondria\x7d\x7d")
          (String.toList
            "\x7b\x7bc1::a\x7d\x7d The \x7b\x7bc2::mitochondria\x7d\x7d is the \x7b\x7bc3::powerhouse\x7d\x7d")
        = false := by
  exact ⟨by decide, by decide⟩

/-- C7 amended: on the paragraph consisting exactly of
`"The **mitochondria** is the **powerhouse**"` the extractor yields one
card whose front is
`"The \x7b\x7bc1::mitochondria\x7d\x7d is the \x7b\x7bc2::powerhouse\x7d\x7d"`
with an empty back (an earlier highlighted span would shift the
indices); and every document shorter than 20 characters yields zero
cards. -/
theorem C7_amended_cloze_example :
    create_cloze_cards (String.toList "The **mitochondria** is the **powerhouse**")
        = some [(String.toList
            "The \x7b\x7bc1::mitochondria\x7d\x7d is the \x7b\x7bc2::powerhouse\x7d\x7d", [])]
      ∧ ∀ (md : List Char), md.length < 20 → create_cloze_cards md = some [] :=
  ⟨by decide, create_cloze_cards_short⟩

theorem C7_amended_witness :
    create_cloze_cards (String.toList "**tiny**") = some [] :=
  C7_amended_cloze_example.2 (String.toList "**tiny**") (by decide)

theorem containsSub_ne_nil (pat l : List Char) (hp : pat ≠ [])
    (h : containsSubB pat l = true) : l ≠ [] := by
  intro hl
  subst hl
  cases pat with
  | nil => exact hp rfl
  | cons a as => simp [containsSubB, isPre] at h

/-- A cloze card's front always contains a deletion marker, hence is
non-empty. -/
theorem clozeForParagraph_fronts (p : List Char)
    (cs : List (List Char × List Char)) (h : clozeForParagraph p = some cs) :
    ∀ c ∈ cs, c.1 ≠ [] := by
  unfold clozeForParagraph at h
  split at h
  · injection h with h
    subst h
    intro c hc
    simp at hc
  · cases hfh : findHighlights p with
    | nil =>
      simp only [hfh] at h
      injection h with h
      subst h
      intro c hc
      simp at hc
    | cons g gs =>
      simp only [hfh] at h
      cases hap : applyHighlights (g :: gs) 1 p with
      | none =>
        simp only [hap] at h
        exact Option.noConfusion h
      | some clozeText =>
        simp only [hap] at h
        split at h
        · rename_i hct
          injection h with h
          subst h
          intro c hc
          simp only [List.mem_singleton] at hc
          subst hc
          exact containsSub_ne_nil clozeOpen clozeText (by decide) hct
        · injection h with h
          subst h
          intro c hc
          simp at hc

theorem seqParagraphs_fronts :
    ∀ (ps : List (List Char)) cs, seqParagraphs ps = some cs →
      ∀ c ∈ cs, c.1 ≠ [] := by
  intro ps
  induction ps with
  | nil =>
    intro cs h c hc
    injection h with h
    subst h
    simp at hc
  | cons p rest ih =>
    intro cs h c hc
    unfold seqParagraphs at h
    cases h1 : clozeForParagraph p with
    | none =>
      simp only [h1] at h
      exact Option.noConfusion h
    | some l1 =>
      simp only [h1] at h
      cases h2 : seqParagraphs rest with
      | none =>
        simp only [h2] at h
        exact Option.noConfusion h
      | some l2 =>
        simp only [h2] at h
        injection h with h
        subst h
        rcases List.mem_append.mp hc with hc | hc
        · exact clozeForParagraph_fronts p l1 h1 c hc
        · exact ih l2 h2 c hc

/-- A code-block card's front is the question text, which starts with
`"What does this "` and is therefore non-empty. -/
theorem codeCardFor_front (md : List Char) (lc : List Char × List Char)
    (c : List Char × List Char) (h : codeCardFor md lc = some c) : c.1 ≠ [] := by
  unfold codeCardFor at h
  cases h1 : firstIdxOfSub (fence3 ++ lc.1 ++ '\n' :: lc.2) md with
  | none =>
    simp only [h1] at h
    exact Option.noConfusion h
  | some bp =>
    simp only [h1] at h
    cases h2 : rfindSub ('\n' :: ['\n']) (md.take bp) with
    | none =>
      simp only [h2] at h
      exact Option.noConfusion h
    | some st =>
      simp only [h2] at h
      split at h
      · injection h with h
        subst h
        intro hq
        simp [mkCodeQuestion] at hq
      · cases h

theorem parse_markdown_code_blocks_fronts (md : List Char) :
    ∀ c ∈ parse_markdown_code_blocks md, c.1 ≠ [] := by
  intro c hc
  unfold parse_markdown_code_blocks at hc
  rcases List.mem_filterMap.mp hc with ⟨lc, _, hlc⟩
  exact codeCardFor_front md lc c hlc

/-- C5 amended: every card emitted by the bullet, code-block and cloze
extractors has a non-empty front (the bullet extractor emits no cards
at all, a code-block front starts with `"What does this "`, and a
cloze front contains a deletion marker).  The section extractor does
not guarantee this: it can emit an empty front for a header whose
title is whitespace-only, or when a non-whitespace preamble shifts the
pairing. -/
theorem C5_amended_nonempty_fronts :
    ∀ (md : List Char) (c : List Char × List Char),
      (c ∈ parse_markdown_bullet_points md → c.1 ≠ [])
        ∧ (c ∈ parse_markdown_code_blocks md → c.1 ≠ [])
        ∧ (∀ cs, create_cloze_cards md = some cs → c ∈ cs → c.1 ≠ []) := by
  intro md c
  refine ⟨?_, ?_, ?_⟩
  · intro hc
    rw [parse_markdown_bullet_points_nil md] at hc
    simp at hc
  · exact parse_markdown_code_blocks_fronts md c
  · intro cs hcs hc
    unfold create_cloze_cards at hcs
    exact seqParagraphs_fronts _ cs hcs c hc

theorem C5_amended_witness :
    (String.toList "What does this py code do?\n```py\nx\n```",
      String.toList "B.").1 ≠ [] :=
  (C5_amended_nonempty_fronts (String.toList "A.\n\nB.\n```py\nx\n```")
    (String.toList "What does this py code do?\n```py\nx\n```",
      String.toList "B.")).2.1 (by decide)

theorem splitNL_head_pre :
    ∀ (md p : List Char) (ps : List (List Char)),
      splitNL md = p :: ps → ∃ suf, md = p ++ suf := by
  intro md
  induction md with
  | nil =>
    intro p ps h
    simp only [splitNL] at h
    injection h with h1 _
    exact ⟨[], by rw [← h1]; rfl⟩
  | cons c rest ih =>
    intro p ps h
    by_cases hc : c = '\n'
    · rw [splitNL, if_pos hc] at h
      injection h with h1 _
      exact ⟨c :: rest, by rw [← h1]; rfl⟩
    · rw [splitNL, if_neg hc] at h
      cases hq : splitNL rest with
      | nil =>
        rw [hq] at h
        injection h with h1 _
        exact ⟨rest, by rw [← h1]; rfl⟩
      | cons q qs =>
        rw [hq] at h
        injection h with h1 _
        obtain ⟨suf, hsuf⟩ := ih q qs hq
        exact ⟨suf, by rw [← h1, List.cons_append, ← hsuf]⟩

theorem pH2_shape (c : Char) (t suf : List Char) (hws : isPyWS c = true) :
    pH2 (('#' :: '#' :: c :: t) ++ suf) = true := by
  simp [pH2, hws]

theorem pH2_inv (l : List Char) (h : pH2 l = true) :
    ∃ c t, l = '#' :: '#' :: c :: t ∧ isPyWS c = true := by
  cases l with
  | nil => simp [pH2] at h
  | cons a s1 =>
    cases s1 with
    | nil => simp [pH2] at h
    | cons b s2 =>
      cases s2 with
      | nil => simp [pH2] at h
      | cons c t =>
        simp only [pH2, Bool.and_eq_true, decide_eq_true_eq] at h
        exact ⟨c, t, by rw [h.1.1, h.1.2], h.2⟩

/-- If some line of the document satisfies the header-position
predicate, then the multiline search finds it: the first part is the
statement for a search starting at a line start, the second for a line
in the tail of the split, reachable under any flag. -/
theorem searchLS_pH2_of_line :
    ∀ (md : List Char),
      (∀ l, l ∈ splitNL md → pH2 l = true → searchLS pH2 true md = true)
        ∧ (∀ (b : Bool) l, l ∈ (splitNL md).tail → pH2 l = true →
            searchLS pH2 b md = true) := by
  intro md
  induction md with
  | nil =>
    constructor
    · intro l hl hp
      simp only [splitNL, List.mem_singleton] at hl
      subst hl
      simp [pH2] at hp
    · intro b l hl hp
      simp [splitNL] at hl
  | cons c rest ih =>
    by_cases hc : c = '\n'
    · subst hc
      constructor
      · intro l hl hp
        rw [splitNL, if_pos rfl] at hl
        rcases List.mem_cons.mp hl with hl | hl
        · subst hl; simp [pH2] at hp
        · have h1 := ih.1 l hl hp
          simp [searchLS, h1]
      · intro b l hl hp
        rw [splitNL, if_pos rfl] at hl
        simp only [List.tail_cons] at hl
        have h1 := ih.1 l hl hp
        simp [searchLS, h1]
    · constructor
      · intro l hl hp
        rw [splitNL, if_neg hc] at hl
        cases hq : splitNL rest with
        | nil =>
          rw [hq] at hl
          simp only [List.mem_singleton] at hl
          subst hl
          simp [pH2] at hp
        | cons q qs =>
          rw [hq] at hl
          rcases List.mem_cons.mp hl with hl | hl
          · subst hl
            obtain ⟨suf, hsuf⟩ := splitNL_head_pre rest q qs hq
            rcases pH2_inv _ hp with ⟨d, t, hshape, hws⟩
            have : pH2 ((c :: q) ++ suf) = true := by
              rw [hshape]
              exact pH2_shape d t suf hws
            rw [List.cons_append, ← hsuf] at this
            simp [searchLS, this]
          · have h1 := ih.2 (decide (c = '\n')) l (by rw [hq]; exact hl) hp
            simp [searchLS, h1]
      · intro b l hl hp
        rw [splitNL, if_neg hc] at hl
        cases hq : splitNL rest with
        | nil =>
          rw [hq] at hl
          simp at hl
        | cons q qs =>
          rw [hq] at hl
          simp only [List.tail_cons] at hl
          have h1 := ih.2 (decide (c = '\n')) l (by rw [hq]; exact hl) hp
          simp [searchLS, h1]

/-- C6: a document with a line beginning with two hashes followed by a
whitespace character is detected as `sections`, whatever other
structural signals (bullets, fences, highlights) it also contains: the
priority cascade tests the header search first. -/
theorem C6_h2_detection :
    ∀ (md : List Char), (∃ l, l ∈ splitNL md ∧ pH2 l = true) →
      detect_card_format md = "sections" := by
  intro md h
  rcases h with ⟨l, hl, hp⟩
  have h1 := (searchLS_pH2_of_line md).1 l hl hp
  simp [detect_card_format, h1]

theorem C6_witness :
    detect_card_format (String.toList "## T\n- a\n  - b\n```py\nc\n```")
      = "sections" :=
  C6_h2_detection (String.toList "## T\n- a\n  - b\n```py\nc\n```")
    ⟨String.toList "## T", by decide, by decide⟩

/-- C10: the writer emits exactly one record per card and no header
record; a cloze record has the two fields (front, tags) and a basic
record the three fields (front, back, tags). -/
theorem C10_writer_rows :
    ∀ (cards : List (List Char × List Char)) (tag_list : Option (List Char))
      (card_type : String),
      (write_cards_to_file cards tag_list card_type).length = cards.length
        ∧ ∀ row ∈ write_cards_to_file cards tag_list card_type,
            row.length = if card_type = "Cloze" then 2 else 3 := by
  intro cards tag_list card_type
  by_cases hct : card_type = "Cloze"
  · refine ⟨by simp [write_cards_to_file, hct], ?_⟩
    intro row hrow
    simp [write_cards_to_file, hct] at hrow
    rcases hrow with ⟨a, -, ha⟩
    simp [hct, ← ha]
  · refine ⟨by simp [write_cards_to_file, hct], ?_⟩
    intro row hrow
    simp [write_cards_to_file, hct] at hrow
    rcases hrow with ⟨a, b, -, ha⟩
    simp [hct, ← ha]

theorem C10_writer_witness :
    ([String.toList "a", ([] : List Char)] : List (List Char)).length
      = if ("Cloze" : String) = "Cloze" then 2 else 3 :=
  (C10_writer_rows [(String.toList "a", String.toList "b")] none "Cloze").2
    [String.toList "a", []] (by decide)

end MdAnki
